import Mathlib

/-
Verification of the umbral request layer (cache key construction, retry
executor, rate limiter, LRU/TTL response cache, batch chunking, enrichment
merge, performance statistics) against a shallow embedding of the Python
source in src/umbral.
-/

namespace Umbral

/-! ## Cache key construction (core/http.py, HTTPClient.request)

The source computes `cache_key = f"{method}:{url}:{params!s}"` where `params`
is an insertion-ordered Python dict (or `None`).  We model `params` as an
insertion-ordered association list of string keys/values and reproduce
Python's `str()` rendering of such a dict: `{'k': 'v', ...}` with entries in
insertion order. -/

/-- Python `repr` of a short string (no escaping needed for our inputs):
`'s'` with `\x27` the apostrophe character. -/
def pyReprStr (s : String) : String := "\x27" ++ s ++ "\x27"

/-- Python `str()` of an insertion-ordered dict of strings. -/
def pyDictStr (ps : List (String × String)) : String :=
  "\x7b" ++ String.intercalate ", "
    (ps.map (fun p => pyReprStr p.1 ++ ": " ++ pyReprStr p.2)) ++ "\x7d"

/-- Python `str(params)` for `params : dict | None`. -/
def strOfParams : Option (List (String × String)) → String
  | none => "None"
  | some ps => pyDictStr ps

/-- core/utils.py `get_api_endpoint`: endpoint-type to base-URL table. -/
def get_api_endpoint (endpoint_type : String) : String :=
  if endpoint_type = "users" then "https://users.roblox.com"
  else if endpoint_type = "thumbnails" then "https://thumbnails.roblox.com"
  else if endpoint_type = "games" then "https://games.roblox.com"
  else if endpoint_type = "badges" then "https://badges.roblox.com"
  else if endpoint_type = "friends" then "https://friends.roblox.com"
  else if endpoint_type = "presence" then "https://presence.roblox.com"
  else "https://api.roblox.com"

/-- core/http.py line 151: `cache_key = f"{method}:{url}:{params!s}"`. -/
def cacheKey (method url : String) (params : Option (List (String × String))) :
    String :=
  method ++ ":" ++ url ++ ":" ++ strOfParams params

/-- Association-list lookup: the mapping denoted by an insertion-ordered
parameter dict (first binding wins, as in a Python dict with unique keys). -/
def lookupKV : List (String × String) → String → Option String
  | [], _ => none
  | (k, v) :: rest, key => if k = key then some v else lookupKV rest key

/-! ## Retry executor (core/utils.py, retry_on_failure)

The wrapped operation is modelled as a function from the attempt index to an
`Except` outcome.  `retryAux op bf attempt remaining` mirrors the loop
`for attempt in range(max_retries + 1)` from loop counter `attempt` with
`remaining` further indices available; it returns the final outcome, the
number of invocations of `op` performed, and the total backoff time slept
(`backoff_factor * 2 ** attempt` after each non-final failure). -/

def retryAux {E A : Type} (op : Nat → Except E A) (bf : ℚ) :
    Nat → Nat → Except E A × Nat × ℚ
  | attempt, 0 =>
    match op attempt with
    | .ok a => (.ok a, 1, 0)
    | .error e => (.error e, 1, 0)
  | attempt, remaining + 1 =>
    match op attempt with
    | .ok a => (.ok a, 1, 0)
    | .error _ =>
      let d := bf * 2 ^ attempt
      let rest := retryAux op bf (attempt + 1) remaining
      (rest.1, rest.2.1 + 1, rest.2.2 + d)

/-- core/utils.py `retry_on_failure(max_retries, backoff_factor)` applied to
an operation: up to `max_retries + 1` invocations, exponential backoff after
every failure except the last, the last failure re-raised. -/
def retry_on_failure {E A : Type} (max_retries : Nat) (backoff_factor : ℚ)
    (op : Nat → Except E A) : Except E A × Nat × ℚ :=
  retryAux op backoff_factor 0 max_retries

/-! ## Rate limiter (core/utils.py, rate_limit)

The per-operation window `call_times` is a deque of admission timestamps.
Each admission check first purges, from the front, timestamps at least 60
seconds old; if the window still holds `calls_per_minute` timestamps it
raises `RateLimitError(int(60 - (now - call_times[0])))` without sleeping
and without recording anything, else records `now` and admits.  Timestamps
are modelled as rationals. -/

/-- The purge loop `while call_times and now - call_times[0] >= 60: popleft`. -/
def purgeWindow (now : ℚ) : List ℚ → List ℚ
  | [] => []
  | t :: ts => if 60 ≤ now - t then purgeWindow now ts else t :: ts

/-- Outcome of an admission check that fails. -/
inductive RLFailure where
  /-- `raise RateLimitError(int(sleep_time))` with the truncated hint. -/
  | rateLimitError (hint : ℤ)
  /-- `call_times[0]` on an empty deque (reachable only for limit 0). -/
  | indexError
deriving DecidableEq

/-- Python `int()` truncation toward zero on a rational. -/
def pyInt (q : ℚ) : ℤ := if q < 0 then -⌊-q⌋ else ⌊q⌋

/-- One admission check of the `rate_limit(calls_per_minute)` wrapper:
returns the new window on admission, or the raised failure (window already
purged, nothing recorded) on rejection. -/
def tryAcquire (calls_per_minute : Nat) (call_times : List ℚ) (now : ℚ) :
    Except RLFailure (List ℚ) :=
  let purged := purgeWindow now call_times
  if calls_per_minute ≤ purged.length then
    match purged with
    | [] => .error .indexError
    | t :: _ => .error (.rateLimitError (pyInt (60 - (now - t))))
  else .ok (purged ++ [now])

/-! ## Rate limit composed over retry (client.py, decorator stacks)

Every client operation is declared as `@rate_limit(...)` above
`@retry_on_failure(...)`, i.e. the rate-limit wrapper encloses the retry
wrapper: one admission check guards the whole composed call, and only after
admission does the retry loop run the underlying operation. -/

/-- Errors a composed client call can surface. -/
inductive UmbralError (E : Type) where
  /-- Local `RateLimitError` raised by the admission check. -/
  | rateLimited (hint : ℤ)
  /-- Admission-check `IndexError` (limit 0 corner, never configured). -/
  | emptyWindow
  /-- A failure raised by the wrapped operation itself (any kind, including
  remote rate-limit responses surfaced by the transport). -/
  | underlying (e : E)

/-- A composed client call (the decorator stack of e.g. `get_user`):
admission check first, then the retry loop around the underlying operation.
Returns (outcome, number of invocations of the underlying operation, total
backoff slept, final rate window). -/
def composedCall {E A : Type} (calls_per_minute : Nat) (call_times : List ℚ)
    (now : ℚ) (max_retries : Nat) (backoff_factor : ℚ)
    (op : Nat → Except E A) :
    Except (UmbralError E) A × Nat × ℚ × List ℚ :=
  match tryAcquire calls_per_minute call_times now with
  | .error (.rateLimitError h) =>
    (.error (.rateLimited h), 0, 0, purgeWindow now call_times)
  | .error .indexError =>
    (.error .emptyWindow, 0, 0, purgeWindow now call_times)
  | .ok window =>
    let r := retryAux op backoff_factor 0 max_retries
    (r.1.mapError UmbralError.underlying, r.2.1, r.2.2, window)

/-! ## Enrichment fan-out (client.py, UmbralClient.get_user)

`get_user` fetches the primary profile, parses it (counter fields populated
with 0 by `_parse_user_profile`), then gathers the three auxiliary count
fetches with `return_exceptions=True` and replaces each exception outcome by
the default 0 before rebuilding the profile.  The fetch outcomes are
modelled as `Except` values. -/

/-- models.UserProfile (the fields built by the client). -/
structure UserProfile where
  id : Nat
  username : String
  display_name : String
  description : String
  created_date : String
  follower_count : Nat
  following_count : Nat
  friend_count : Nat
  is_verified : Bool
deriving DecidableEq

/-- The primary-fetch JSON fields read by `_parse_user_profile`; optional
fields model `dict.get` with a default. -/
structure UserData where
  id : Nat
  name : String
  displayName : String
  description : Option String
  created : String
  hasVerifiedBadge : Option Bool

/-- client.py `_parse_user_profile`: counters are populated separately and
start at 0; `created` has `Z` replaced by `+00:00`. -/
def parse_user_profile (d : UserData) : UserProfile :=
  { id := d.id
    username := d.name
    display_name := d.displayName
    description := d.description.getD ""
    created_date := d.created.replace "Z" "+00:00"
    follower_count := 0
    following_count := 0
    friend_count := 0
    is_verified := d.hasVerifiedBadge.getD false }

/-- The `isinstance(x, Exception) ? 0 : x` conversion applied to each
gathered auxiliary count. -/
def countOrZero {E : Type} : Except E Nat → Nat
  | .ok n => n
  | .error _ => 0

/-- client.py `get_user` as a function of the primary fetch outcome and the
three auxiliary count-fetch outcomes (slot 0 followers, slot 1 following,
slot 2 friends). -/
def get_user {E : Type} (primary : Except E UserData)
    (follower following friend : Except E Nat) : Except E UserProfile :=
  match primary with
  | .error e => .error e
  | .ok d =>
    let p := parse_user_profile d
    .ok { p with
          follower_count := countOrZero follower
          following_count := countOrZero following
          friend_count := countOrZero friend }

/-! ## Batch chunking (client.py, warm_cache / get_users_batch)

`warm_cache` slices the id list into contiguous chunks of 50 via
`range(0, len(user_ids), 50)` and dispatches one `get_users_batch` per
chunk; `get_users_batch` rejects more than 100 ids with a `ValueError`
before issuing any request and returns `[]` without a request when the list
is empty. -/

/-- The slicing loop `user_ids[i : i + chunk]` for `i in range(0, len, chunk)`
(`chunk ≥ 1` in the source; a chunk size of 0 never occurs). -/
def chunksOf {α : Type} : Nat → List α → List (List α)
  | _, [] => []
  | 0, _ :: _ => []
  | n + 1, x :: xs =>
    (x :: xs).take (n + 1) :: chunksOf (n + 1) ((x :: xs).drop (n + 1))
termination_by _ l => l.length
decreasing_by simp; omega

/-- Unfolding equation of `chunksOf` on a nonempty list. -/
theorem chunksOf_cons {α : Type} (n : Nat) (l : List α) (h : l ≠ []) :
    chunksOf (n + 1) l = l.take (n + 1) :: chunksOf (n + 1) (l.drop (n + 1)) := by
  cases l with
  | nil => exact absurd rfl h
  | cons x xs => rw [chunksOf]

/-- `chunksOf` on the empty list. -/
theorem chunksOf_nil {α : Type} (n : Nat) : chunksOf n ([] : List α) = [] := by
  rw [chunksOf]

/-- What one `get_users_batch` call does before parsing: reject over the
ceiling, skip empty input, or dispatch exactly one POST for the given ids. -/
inductive BatchAction where
  /-- `raise ValueError(...)` before any request is dispatched. -/
  | rejected
  /-- `return []` without dispatching a request. -/
  | noDispatch
  /-- one batch POST carrying exactly these ids. -/
  | dispatch (ids : List Nat)
deriving DecidableEq

/-- client.py `get_users_batch` guard and dispatch behaviour. -/
def get_users_batch_action (user_ids : List Nat) : BatchAction :=
  if 100 < user_ids.length then .rejected
  else if user_ids.isEmpty then .noDispatch
  else .dispatch user_ids

/-- client.py `warm_cache`: one `get_users_batch` per 50-chunk. -/
def warm_cache_actions (user_ids : List Nat) : List BatchAction :=
  (chunksOf 50 user_ids).map get_users_batch_action

/-! ## Response cache (core/utils.py, APICache)

`_cache` is an insertion-ordered dict from key to `{"value": v, "timestamp":
t}`, modelled as an association list; `_access_order` is a deque of keys.
`get` and `set` can raise (`ValueError` from `deque.remove`, `IndexError`
from `popleft` on an empty deque), so both return `Except`, the error value
carrying the cache state at the moment of the raise (the Python object
mutations already performed). -/

/-- One `_cache` entry: `{"value": v, "timestamp": t}`. -/
structure CacheEntry (α : Type) where
  value : α
  timestamp : ℚ
deriving DecidableEq

/-- Dict lookup (first binding wins). -/
def dictLookup {α : Type} : List (String × CacheEntry α) → String →
    Option (CacheEntry α)
  | [], _ => none
  | (k, e) :: rest, key => if k = key then some e else dictLookup rest key

/-- Dict assignment `d[key] = e`: update in place if present, else append. -/
def dictInsert {α : Type} : List (String × CacheEntry α) → String →
    CacheEntry α → List (String × CacheEntry α)
  | [], key, e => [(key, e)]
  | (k, e0) :: rest, key, e =>
    if k = key then (k, e) :: rest else (k, e0) :: dictInsert rest key e

/-- `d.pop(key, None)`: remove the binding if present, else no-op. -/
def dictErase {α : Type} : List (String × CacheEntry α) → String →
    List (String × CacheEntry α)
  | [], _ => []
  | (k, e) :: rest, key =>
    if k = key then rest else (k, e) :: dictErase rest key

/-- The key sequence of the dict. -/
def keysOf {α : Type} (l : List (String × CacheEntry α)) : List String :=
  l.map Prod.fst

/-- core/utils.py APICache state. -/
structure APICache (α : Type) where
  cache : List (String × CacheEntry α)
  accessOrder : List String
  ttl : ℚ
  maxSize : Nat
deriving DecidableEq

/-- `_remove_key`: pop from the dict, remove from the order suppressing
`ValueError` (so a no-op when absent). -/
def APICache.removeKey {α : Type} (c : APICache α) (key : String) :
    APICache α :=
  { c with cache := dictErase c.cache key
           accessOrder := c.accessOrder.erase key }

/-- `APICache.get`: absent if unseen; if expired (`now - timestamp > ttl`)
evict and report absent; on a hit move the key to the most-recently-used end
(`deque.remove` raises `ValueError` — modelled as the `Except` error carrying
the unchanged state — if the key is missing from the order). -/
def APICache.get {α : Type} (c : APICache α) (key : String) (now : ℚ) :
    Except (APICache α) (Option α × APICache α) :=
  match dictLookup c.cache key with
  | none => .ok (none, c)
  | some e =>
    if c.ttl < now - e.timestamp then
      .ok (none, c.removeKey key)
    else if key ∈ c.accessOrder then
      .ok (some e.value,
        { c with accessOrder := c.accessOrder.erase key ++ [key] })
    else
      .error c

/-- The eviction loop `while len(self._cache) >= self._max_size:
lru = order.popleft(); cache.pop(lru, None)`.  `popleft` on an empty deque
raises `IndexError`; the error value is the dict contents at the raise. -/
def evictLoop {α : Type} (maxSize : Nat) :
    List (String × CacheEntry α) → List String →
    Except (List (String × CacheEntry α))
      (List (String × CacheEntry α) × List String)
  | cache, [] =>
    if maxSize ≤ cache.length then .error cache else .ok (cache, [])
  | cache, lru :: rest =>
    if maxSize ≤ cache.length then evictLoop maxSize (dictErase cache lru) rest
    else .ok (cache, lru :: rest)

/-- `APICache.set`: if the key is present its recency entry is removed first
(`deque.remove`, raising `ValueError` if the key is missing from the order);
then the eviction loop runs while the dict is at or above capacity; finally
the entry is stored with timestamp `now` and the key appended as
most-recently-used.  An `IndexError` inside the loop leaves the dict with
the evictions performed so far and the order empty. -/
def APICache.set {α : Type} (c : APICache α) (key : String) (v : α)
    (now : ℚ) : Except (APICache α) (APICache α) :=
  if (dictLookup c.cache key).isSome ∧ key ∉ c.accessOrder then .error c
  else
    let order1 := if (dictLookup c.cache key).isSome
      then c.accessOrder.erase key else c.accessOrder
    match evictLoop c.maxSize c.cache order1 with
    | .error crashCache =>
      .error { c with cache := crashCache, accessOrder := [] }
    | .ok (cache2, order2) =>
      .ok { c with cache := dictInsert cache2 key ⟨v, now⟩
                   accessOrder := order2 ++ [key] }

/-- Well-formedness maintained by the cache in normal operation: no
duplicate recency entries, no duplicate dict keys, and the recency order
holds exactly the cached keys. -/
def APICache.WF {α : Type} (c : APICache α) : Prop :=
  c.accessOrder.Nodup ∧ (keysOf c.cache).Nodup ∧
  ∀ k, k ∈ c.accessOrder ↔ k ∈ keysOf c.cache

/-! ### Dict lemmas -/

theorem dictLookup_isSome_iff {α : Type} (l : List (String × CacheEntry α))
    (k : String) : (dictLookup l k).isSome ↔ k ∈ keysOf l := by
  induction l with
  | nil => simp [dictLookup, keysOf]
  | cons p rest ih =>
    obtain ⟨k0, e0⟩ := p
    by_cases hk : k0 = k
    · subst hk; simp [dictLookup, keysOf]
    · simp [dictLookup, hk, keysOf, Ne.symm hk] at ih ⊢
      exact ih

theorem dictLookup_dictInsert_self {α : Type}
    (l : List (String × CacheEntry α)) (k : String) (e : CacheEntry α) :
    dictLookup (dictInsert l k e) k = some e := by
  induction l with
  | nil => simp [dictInsert, dictLookup]
  | cons p rest ih =>
    obtain ⟨k0, e0⟩ := p
    by_cases hk : k0 = k
    · subst hk; simp [dictInsert, dictLookup]
    · simp [dictInsert, hk, dictLookup, ih]

theorem keysOf_dictErase {α : Type} (l : List (String × CacheEntry α))
    (k : String) : keysOf (dictErase l k) = (keysOf l).erase k := by
  induction l with
  | nil => simp [dictErase, keysOf]
  | cons p rest ih =>
    obtain ⟨k0, e0⟩ := p
    by_cases hk : k0 = k
    · subst hk; simp [dictErase, keysOf, List.erase_cons_head]
    · simp only [dictErase, if_neg hk, keysOf, List.map_cons]
      rw [List.erase_cons_tail]
      · exact congrArg (k0 :: ·) ih
      · simp [hk]

theorem dictLookup_dictErase_self {α : Type}
    (l : List (String × CacheEntry α)) (k : String)
    (h : (keysOf l).Nodup) : dictLookup (dictErase l k) k = none := by
  have : ¬ (dictLookup (dictErase l k) k).isSome := by
    rw [dictLookup_isSome_iff, keysOf_dictErase]
    exact h.not_mem_erase
  cases hh : dictLookup (dictErase l k) k with
  | none => rfl
  | some e => rw [hh] at this; simp at this

theorem keysOf_dictInsert_of_mem {α : Type}
    (l : List (String × CacheEntry α)) (k : String) (e : CacheEntry α)
    (h : k ∈ keysOf l) : keysOf (dictInsert l k e) = keysOf l := by
  induction l with
  | nil => simp [keysOf] at h
  | cons p rest ih =>
    obtain ⟨k0, e0⟩ := p
    by_cases hk : k0 = k
    · subst hk; simp [dictInsert, keysOf]
    · simp only [keysOf, List.map_cons, List.mem_cons] at h
      rcases h with h | h
      · exact absurd h.symm hk
      · have ih2 := ih h
        simp only [keysOf] at ih2
        simp [dictInsert, hk, keysOf, ih2]

theorem keysOf_dictInsert_of_not_mem {α : Type}
    (l : List (String × CacheEntry α)) (k : String) (e : CacheEntry α)
    (h : k ∉ keysOf l) : keysOf (dictInsert l k e) = keysOf l ++ [k] := by
  induction l with
  | nil => simp [dictInsert, keysOf]
  | cons p rest ih =>
    obtain ⟨k0, e0⟩ := p
    simp only [keysOf, List.map_cons, List.mem_cons] at h
    push_neg at h
    have ih2 := ih h.2
    simp only [keysOf] at ih2
    simp only [dictInsert, keysOf]
    rw [if_neg (Ne.symm h.1)]
    simp [ih2]

theorem length_dictErase_of_mem {α : Type}
    (l : List (String × CacheEntry α)) (k : String) (h : k ∈ keysOf l) :
    (dictErase l k).length = l.length - 1 := by
  induction l with
  | nil => simp [keysOf] at h
  | cons p rest ih =>
    obtain ⟨k0, e0⟩ := p
    by_cases hk : k0 = k
    · subst hk; simp [dictErase]
    · simp only [keysOf, List.map_cons, List.mem_cons] at h
      rcases h with h | h
      · exact absurd h.symm hk
      · have hrest : 1 ≤ rest.length := by
          cases rest with
          | nil => simp [keysOf] at h
          | cons q qs => simp
        simp only [dictErase, if_neg hk, List.length_cons, ih h]
        omega

theorem evictLoop_ok_of_lt {α : Type} (m : Nat)
    (cache : List (String × CacheEntry α)) (order : List String)
    (h : ¬ m ≤ cache.length) : evictLoop m cache order = .ok (cache, order) := by
  cases order with
  | nil => unfold evictLoop; rw [if_neg h]
  | cons lru rest => unfold evictLoop; rw [if_neg h]

theorem evictLoop_ok_nodup {α : Type} (m : Nat)
    (order : List String) :
    ∀ (cache : List (String × CacheEntry α)) cache2 order2,
      evictLoop m cache order = .ok (cache2, order2) →
      (keysOf cache).Nodup → (keysOf cache2).Nodup := by
  induction order with
  | nil =>
    intro cache cache2 order2 h hn
    unfold evictLoop at h
    split at h
    · exact Except.noConfusion h
    · obtain ⟨h1, _⟩ := Prod.mk.injEq .. ▸ (Except.ok.injEq .. ▸ h)
      exact h1 ▸ hn
  | cons lru rest ih =>
    intro cache cache2 order2 h hn
    unfold evictLoop at h
    split at h
    · refine ih (dictErase cache lru) cache2 order2 h ?_
      rw [keysOf_dictErase]
      exact hn.erase lru
    · obtain ⟨h1, _⟩ := Prod.mk.injEq .. ▸ (Except.ok.injEq .. ▸ h)
      exact h1 ▸ hn

theorem nodup_keysOf_dictInsert {α : Type}
    (l : List (String × CacheEntry α)) (k : String) (e : CacheEntry α)
    (h : (keysOf l).Nodup) : (keysOf (dictInsert l k e)).Nodup := by
  by_cases hk : k ∈ keysOf l
  · rw [keysOf_dictInsert_of_mem l k e hk]; exact h
  · rw [keysOf_dictInsert_of_not_mem l k e hk]
    simp [List.nodup_append, h, hk]

/-- Inversion of a successful `set`: the stored state is the post-eviction
dict with the new entry written and the key appended as most-recently-used. -/
theorem set_ok_shape {α : Type} (c : APICache α) (k : String) (v : α)
    (now : ℚ) (c' : APICache α) (h : c.set k v now = .ok c') :
    ∃ cache2 order2,
      evictLoop c.maxSize c.cache
        (if (dictLookup c.cache k).isSome then c.accessOrder.erase k
          else c.accessOrder) = .ok (cache2, order2) ∧
      c' = { c with cache := dictInsert cache2 k ⟨v, now⟩
                    accessOrder := order2 ++ [k] } := by
  unfold APICache.set at h
  by_cases hcond : (dictLookup c.cache k).isSome ∧ k ∉ c.accessOrder
  · rw [if_pos hcond] at h
    exact Except.noConfusion h
  · rw [if_neg hcond] at h
    simp only [] at h
    cases hev : evictLoop c.maxSize c.cache
        (if (dictLookup c.cache k).isSome then c.accessOrder.erase k
          else c.accessOrder) with
    | error cc =>
      rw [hev] at h
      exact Except.noConfusion h
    | ok p =>
      obtain ⟨cache2, order2⟩ := p
      rw [hev] at h
      refine ⟨cache2, order2, rfl, ?_⟩
      injection h with h
      exact h.symm

/-! ## Performance monitor (core/performance.py)

Durations and derived statistics are modelled as rationals; Python's
`round(x, n)` is round-half-to-even at `10 ^ (-n)`. -/

/-- core/performance.py RequestMetrics. -/
structure RequestMetrics where
  endpoint : String
  method : String
  duration : ℚ
  success : Bool
  cached : Bool
deriving DecidableEq

/-- The dict returned by `_calculate_basic_stats`. -/
structure BasicStats where
  total_requests : Nat
  avg_duration : ℚ
  success_rate : ℚ
  cache_hit_rate : ℚ
deriving DecidableEq

/-- The dict returned by `get_stats`: the basic block plus
`fastest_request` / `slowest_request`, present only when the analyzed
window is nonempty. -/
structure PerfStats where
  basic : BasicStats
  fastest_request : Option ℚ
  slowest_request : Option ℚ
deriving DecidableEq

/-- Round half to even to the nearest integer (Python `round(x)`). -/
def pyRoundHalfEven (x : ℚ) : ℤ :=
  let f := ⌊x⌋
  let r := x - f
  if r < 1/2 then f
  else if 1/2 < r then f + 1
  else if Even f then f else f + 1

/-- Python `round(x, n)` on a rational. -/
def pyRound (x : ℚ) (n : Nat) : ℚ :=
  (pyRoundHalfEven (x * 10 ^ n) : ℚ) / 10 ^ n

/-- `min` over a Python generator of the window's durations. -/
def listMin : List ℚ → Option ℚ
  | [] => none
  | x :: xs =>
    match listMin xs with
    | none => some x
    | some y => some (min x y)

/-- `max` over a Python generator of the window's durations. -/
def listMax : List ℚ → Option ℚ
  | [] => none
  | x :: xs =>
    match listMax xs with
    | none => some x
    | some y => some (max x y)

/-- Python slice `l[-n:]` for `n ≥ 0`: the last `n` elements for `n ≥ 1`
(`-0 == 0`, so `l[-0:]` is the whole list). -/
def pySliceLast {α : Type} (l : List α) (n : Nat) : List α :=
  if n = 0 then l else l.drop (l.length - n)

/-- core/performance.py `_calculate_basic_stats`. -/
def calculate_basic_stats (metrics : List RequestMetrics) : BasicStats :=
  if metrics.isEmpty then
    { total_requests := 0, avg_duration := 0
      success_rate := 0, cache_hit_rate := 0 }
  else
    let total : ℚ := metrics.length
    let successful : ℚ := metrics.countP (fun m => m.success)
    let cached : ℚ := metrics.countP (fun m => m.cached)
    let avg := (metrics.map (fun m => m.duration)).sum / total
    { total_requests := metrics.length
      avg_duration := pyRound avg 3
      success_rate := pyRound (successful / total * 100) 2
      cache_hit_rate := pyRound (cached / total * 100) 2 }

/-- core/performance.py `get_stats(last_n)`:
`recent = metrics[-last_n:] if metrics else []`, basic statistics over
`recent`, plus fastest/slowest only when `recent` is nonempty. -/
def get_stats (metrics : List RequestMetrics) (last_n : Nat) : PerfStats :=
  let recent := if metrics.isEmpty then [] else pySliceLast metrics last_n
  { basic := calculate_basic_stats recent
    fastest_request := listMin (recent.map (fun m => m.duration))
    slowest_request := listMax (recent.map (fun m => m.duration)) }

theorem total_requests_eq (l : List RequestMetrics) :
    (calculate_basic_stats l).total_requests = l.length := by
  cases l with
  | nil => rfl
  | cons m rest => rfl

theorem listMin_isSome_iff (l : List ℚ) : (listMin l).isSome ↔ l ≠ [] := by
  cases l with
  | nil => simp [listMin]
  | cons x xs =>
    simp only [listMin, ne_eq, reduceCtorEq, not_false_eq_true, iff_true]
    cases listMin xs <;> simp

theorem listMax_isSome_iff (l : List ℚ) : (listMax l).isSome ↔ l ≠ [] := by
  cases l with
  | nil => simp [listMax]
  | cons x xs =>
    simp only [listMax, ne_eq, reduceCtorEq, not_false_eq_true, iff_true]
    cases listMax xs <;> simp

/-! ## Claim theorems (first group) -/

/-- Claim C1 counterexample: two invocations with the same method, the same
resolved URL, and query-parameter mappings that are equal as mappings (the
same two key/value pairs, supplied in different order) produce different
cache keys, because the key embeds Python's insertion-ordered `str(params)`. -/
theorem cacheKey_order_dependent_cex :
    (∀ k, lookupKV [("a", "1"), ("b", "2")] k
        = lookupKV [("b", "2"), ("a", "1")] k) ∧
    cacheKey "GET" "https://users.roblox.com/v1/users"
        (some [("a", "1"), ("b", "2")]) ≠
    cacheKey "GET" "https://users.roblox.com/v1/users"
        (some [("b", "2"), ("a", "1")]) := by
  constructor
  · intro k
    by_cases ha : "a" = k <;> by_cases hb : "b" = k <;>
      simp [lookupKV, ha, hb]
    · subst ha; exact absurd hb (by decide)
  · decide

/-- Claim C1 (amended): the cache key is a pure function of the method, the
resolved URL and the serialized parameter representation, so two invocations
whose parameter dicts serialize identically (in particular, identical
key/value sequences in the same order) get the same key; parameter order in
general does affect the key. -/
theorem cacheKey_deterministic (m u : String)
    (p q : Option (List (String × String)))
    (h : strOfParams p = strOfParams q) :
    cacheKey m u p = cacheKey m u q := by
  simp [cacheKey, h]

theorem cacheKey_deterministic_witness :
    cacheKey "GET" "https://users.roblox.com/v1/users" (some [("a", "1")])
      = cacheKey "GET" "https://users.roblox.com/v1/users"
          (some [("a", "1")]) :=
  cacheKey_deterministic _ _ _ _ rfl

/-- Claim C4: an operation that fails on every invocation, run under
`retry_on_failure` with `max_retries = 3` and `backoff_factor = 1`, is
invoked exactly 4 times, the surfaced error is exactly the failure of the
4th invocation (attempt index 3, no aggregation), and the cumulative backoff
slept between attempts is `1 + 2 + 4 = 7` seconds (no delay after the final
attempt); this holds for an arbitrary error type, i.e. all error kinds are
retried identically. -/
theorem retry_always_failing_invocations {E A : Type} (f : Nat → E) :
    retry_on_failure 3 1 (fun i => (Except.error (f i) : Except E A)) =
      (Except.error (f 3), 4, 7) := by
  simp only [retry_on_failure, retryAux]
  norm_num

/-- Claim C3: with `calls_per_minute = 3`, four admission attempts at
nondecreasing times all within one second admit the first three (each
recording its timestamp in the window) and reject exactly the fourth as an
immediate error, whose retry-after hint is strictly positive and at most
60 seconds. -/
theorem rate_limit_three_per_minute (t1 t2 t3 t4 : ℚ)
    (h12 : t1 ≤ t2) (h23 : t2 ≤ t3) (h34 : t3 ≤ t4) (hspan : t4 - t1 ≤ 1) :
    tryAcquire 3 [] t1 = .ok [t1] ∧
    tryAcquire 3 [t1] t2 = .ok [t1, t2] ∧
    tryAcquire 3 [t1, t2] t3 = .ok [t1, t2, t3] ∧
    ∃ hint : ℤ, tryAcquire 3 [t1, t2, t3] t4 = .error (.rateLimitError hint) ∧
      0 < hint ∧ hint ≤ 60 := by
  have hq2 : ¬ (60 ≤ t2 - t1) := by linarith
  have hq3 : ¬ (60 ≤ t3 - t1) := by linarith
  have hq4 : ¬ (60 ≤ t4 - t1) := by linarith
  refine ⟨by simp [tryAcquire, purgeWindow], ?_, ?_, ?_⟩
  · simp [tryAcquire, purgeWindow, hq2]
  · simp [tryAcquire, purgeWindow, hq3]
  · refine ⟨pyInt (60 - (t4 - t1)), ?_, ?_, ?_⟩
    · simp [tryAcquire, purgeWindow, hq4]
    · have h59 : (59 : ℚ) ≤ 60 - (t4 - t1) := by linarith
      have hnn : ¬ (60 - (t4 - t1) < 0) := by linarith
      have : (59 : ℤ) ≤ ⌊(60 : ℚ) - (t4 - t1)⌋ := by
        rw [Int.le_floor]; exact_mod_cast h59
      simp only [pyInt, hnn, if_false]
      omega
    · have h60 : 60 - (t4 - t1) ≤ (60 : ℚ) := by linarith
      have hnn : ¬ (60 - (t4 - t1) < 0) := by linarith
      have : ⌊(60 : ℚ) - (t4 - t1)⌋ ≤ 60 := by
        have hf : (⌊(60 : ℚ) - (t4 - t1)⌋ : ℚ) ≤ 60 - (t4 - t1) :=
          Int.floor_le _
        exact_mod_cast hf.trans h60
      simp only [pyInt, hnn, if_false]
      omega

theorem rate_limit_three_per_minute_witness :
    tryAcquire 3 [] 0 = .ok [0] ∧
    tryAcquire 3 [0] (1/4) = .ok [0, 1/4] ∧
    tryAcquire 3 [0, 1/4] (1/2) = .ok [0, 1/4, 1/2] ∧
    ∃ hint : ℤ,
      tryAcquire 3 [0, 1/4, 1/2] (3/4) = .error (.rateLimitError hint) ∧
      0 < hint ∧ hint ≤ 60 :=
  rate_limit_three_per_minute 0 (1/4) (1/2) (3/4)
    (by norm_num) (by norm_num) (by norm_num) (by norm_num)

/-- Claim C10: the rate-limit wrapper encloses the retry wrapper in every
composed client operation, so an admission rejection from the local limiter
propagates immediately with zero invocations of the underlying operation and
zero backoff, while after admission the composed call behaves exactly as the
retry loop over the underlying operation — every failure raised by the
operation itself (of any kind) passes through the retry loop. -/
theorem rate_limit_encloses_retry {E A : Type} (cpm : Nat)
    (call_times : List ℚ) (now : ℚ) (mr : Nat) (bf : ℚ)
    (op : Nat → Except E A) :
    (∀ h : ℤ, tryAcquire cpm call_times now = .error (.rateLimitError h) →
      composedCall cpm call_times now mr bf op =
        (.error (.rateLimited h), 0, 0, purgeWindow now call_times)) ∧
    (∀ window : List ℚ, tryAcquire cpm call_times now = .ok window →
      composedCall cpm call_times now mr bf op =
        ((retryAux op bf 0 mr).1.mapError UmbralError.underlying,
          (retryAux op bf 0 mr).2.1, (retryAux op bf 0 mr).2.2, window)) := by
  constructor
  · intro h hacq
    simp [composedCall, hacq]
  · intro window hacq
    simp [composedCall, hacq]

theorem rate_limit_encloses_retry_witness :
    composedCall 1 [0] 1 3 1 (fun i => (Except.error i : Except Nat Unit)) =
      (.error (.rateLimited 59), 0, 0, [0]) := by
  have h := (rate_limit_encloses_retry 1 [0] 1 3 1
    (fun i => (Except.error i : Except Nat Unit))).1 59
    (by simp [tryAcquire, purgeWindow, pyInt])
  simpa [purgeWindow] using h

/-- Claim C2: when the primary fetch succeeds and exactly the slot-1
auxiliary fetch (the following-count fetch) fails, `get_user` returns a
success whose primary-derived fields are exactly those parsed from the
primary fetch, whose `following_count` is the policy default 0, and whose
`follower_count` and `friend_count` are the successfully fetched values;
the slot-1 failure is not surfaced as an overall failure. -/
theorem get_user_slot1_failure {E : Type} (d : UserData) (a b : Nat) (e : E) :
    get_user (Except.ok d) (Except.ok a) (Except.error e) (Except.ok b) =
      Except.ok { parse_user_profile d with
                  follower_count := a
                  following_count := 0
                  friend_count := b } := rfl

/-- Claim C7: 120 identifiers with chunk size 50 are partitioned into the
ordered contiguous chunks of sizes `[50, 50, 20]` whose concatenation is the
input, `warm_cache` dispatches exactly one batch request per chunk, every
chunk is within the hard ceiling of 100, and any single batch call with 101
identifiers is rejected before any request is dispatched. -/
theorem warm_cache_chunking (ids : List Nat) (h : ids.length = 120) :
    (chunksOf 50 ids).map List.length = [50, 50, 20] ∧
    (chunksOf 50 ids).flatten = ids ∧
    warm_cache_actions ids =
      [.dispatch (ids.take 50), .dispatch ((ids.drop 50).take 50),
        .dispatch (ids.drop 100)] ∧
    (∀ c ∈ chunksOf 50 ids, c.length ≤ 100) ∧
    (∀ ids2 : List Nat, ids2.length = 101 →
      get_users_batch_action ids2 = .rejected) := by
  have h0 : ids ≠ [] := by
    intro hnil; rw [hnil] at h; simp at h
  have hd50 : (ids.drop 50).length = 70 := by simp [h]
  have h1 : ids.drop 50 ≠ [] := by
    intro hnil; rw [hnil] at hd50; simp at hd50
  have hdd : (ids.drop 50).drop 50 = ids.drop 100 := by
    rw [List.drop_drop]
  have hd100 : (ids.drop 100).length = 20 := by simp [h]
  have h2 : ids.drop 100 ≠ [] := by
    intro hnil; rw [hnil] at hd100; simp at hd100
  have hd150 : (ids.drop 100).drop 50 = [] := by
    rw [List.drop_drop]
    exact List.drop_eq_nil_of_le (by omega)
  have ht100 : (ids.drop 100).take 50 = ids.drop 100 :=
    List.take_of_length_le (by omega)
  have echunks : chunksOf 50 ids =
      [ids.take 50, (ids.drop 50).take 50, ids.drop 100] := by
    rw [chunksOf_cons 49 ids h0, chunksOf_cons 49 _ h1]
    show _ :: _ :: chunksOf 50 ((ids.drop 50).drop 50) = _
    rw [hdd, chunksOf_cons 49 _ h2, hd150, ht100, chunksOf_nil]
  have lt1 : (ids.take 50).length = 50 := by simp [h]
  have lt2 : ((ids.drop 50).take 50).length = 50 := by simp [h]
  have act : ∀ c : List Nat, c.length ≠ 0 → c.length ≤ 100 →
      get_users_batch_action c = .dispatch c := by
    intro c hc1 hc2
    have hemp : c.isEmpty = false := by
      cases c with
      | nil => simp at hc1
      | cons a l => rfl
    unfold get_users_batch_action
    rw [if_neg (by omega), hemp]
    simp
  refine ⟨?_, ?_, ?_, ?_, ?_⟩
  · rw [echunks]; simp [lt1, lt2, hd100]
  · rw [echunks]
    simp only [List.flatten_cons, List.flatten_nil, List.append_nil]
    rw [← hdd, List.take_append_drop, List.take_append_drop]
  · unfold warm_cache_actions
    rw [echunks]
    simp only [List.map]
    rw [act _ (by omega) (by omega), act _ (by omega) (by omega),
      act _ (by omega) (by omega)]
  · intro c hc
    rw [echunks] at hc
    simp only [List.mem_cons, List.not_mem_nil, or_false] at hc
    rcases hc with rfl | rfl | rfl
    · omega
    · omega
    · omega
  · intro ids2 h2len
    unfold get_users_batch_action
    rw [if_pos (by omega)]

theorem warm_cache_chunking_witness :
    (chunksOf 50 (List.range 120)).map List.length = [50, 50, 20] ∧
    (chunksOf 50 (List.range 120)).flatten = List.range 120 ∧
    warm_cache_actions (List.range 120) =
      [.dispatch ((List.range 120).take 50),
        .dispatch (((List.range 120).drop 50).take 50),
        .dispatch ((List.range 120).drop 100)] ∧
    (∀ c ∈ chunksOf 50 (List.range 120), c.length ≤ 100) ∧
    (∀ ids2 : List Nat, ids2.length = 101 →
      get_users_batch_action ids2 = .rejected) :=
  warm_cache_chunking (List.range 120) (by simp)

/-- Claim C5: after a successful `set(k, v)` at time `t` (on a cache whose
dict keys are duplicate-free), a `get(k)` at any time `t2` with at most the
TTL elapsed returns `v`; once more than the TTL has elapsed, `get(k)`
returns absent, evicts the entry from the dict, and every later `get(k)`
(without an intervening `set`) still returns absent with the state
unchanged — the entry is never resurrected. -/
theorem cache_set_then_get {α : Type} (c c' : APICache α) (k : String)
    (v : α) (t t2 : ℚ) (hnodup : (keysOf c.cache).Nodup)
    (hset : c.set k v t = .ok c') :
    (t2 - t ≤ c.ttl → ∃ c2, c'.get k t2 = .ok (some v, c2)) ∧
    (c.ttl < t2 - t →
      c'.get k t2 = .ok (none, c'.removeKey k) ∧
      k ∉ keysOf (c'.removeKey k).cache ∧
      ∀ t3 : ℚ, (c'.removeKey k).get k t3 = .ok (none, c'.removeKey k)) := by
  obtain ⟨cache2, order2, hev, hc'⟩ := set_ok_shape c k v t c' hset
  have hlook : dictLookup c'.cache k = some ⟨v, t⟩ := by
    rw [hc']
    exact dictLookup_dictInsert_self cache2 k ⟨v, t⟩
  have httl : c'.ttl = c.ttl := by rw [hc']
  have hnodup2 : (keysOf c'.cache).Nodup := by
    rw [hc']
    exact nodup_keysOf_dictInsert _ _ _
      (evictLoop_ok_nodup c.maxSize _ c.cache cache2 order2 hev hnodup)
  have hmem : k ∈ c'.accessOrder := by
    rw [hc']; simp
  constructor
  · intro hle
    refine ⟨{ c' with accessOrder := c'.accessOrder.erase k ++ [k] }, ?_⟩
    simp only [APICache.get, hlook]
    rw [if_neg (by rw [httl]; simpa using hle), if_pos hmem]
  · intro hgt
    have hexp : c'.ttl < t2 - (⟨v, t⟩ : CacheEntry α).timestamp := by
      rw [httl]; simpa using hgt
    have hget : c'.get k t2 = .ok (none, c'.removeKey k) := by
      simp only [APICache.get, hlook]
      rw [if_pos hexp]
    have hgone : dictLookup (c'.removeKey k).cache k = none := by
      unfold APICache.removeKey
      exact dictLookup_dictErase_self c'.cache k hnodup2
    have hnotmem : k ∉ keysOf (c'.removeKey k).cache := by
      rw [← dictLookup_isSome_iff, hgone]
      simp
    refine ⟨hget, hnotmem, ?_⟩
    intro t3
    simp only [APICache.get, hgone]

theorem cache_set_then_get_witness :
    ((100 : ℚ) - 0 ≤ (⟨[], [], 300, 1000⟩ : APICache Nat).ttl →
      ∃ c2, (⟨[("k", ⟨42, 0⟩)], ["k"], 300, 1000⟩ : APICache Nat).get "k" 100
        = .ok (some 42, c2)) ∧
    ((⟨[], [], 300, 1000⟩ : APICache Nat).ttl < (100 : ℚ) - 0 →
      (⟨[("k", ⟨42, 0⟩)], ["k"], 300, 1000⟩ : APICache Nat).get "k" 100 =
        .ok (none,
          (⟨[("k", ⟨42, 0⟩)], ["k"], 300, 1000⟩ : APICache Nat).removeKey "k") ∧
      "k" ∉ keysOf ((⟨[("k", ⟨42, 0⟩)], ["k"], 300, 1000⟩ :
        APICache Nat).removeKey "k").cache ∧
      ∀ t3 : ℚ, ((⟨[("k", ⟨42, 0⟩)], ["k"], 300, 1000⟩ :
          APICache Nat).removeKey "k").get "k" t3 =
        .ok (none,
          (⟨[("k", ⟨42, 0⟩)], ["k"], 300, 1000⟩ : APICache Nat).removeKey "k")) :=
  cache_set_then_get (⟨[], [], 300, 1000⟩ : APICache Nat)
    (⟨[("k", ⟨42, 0⟩)], ["k"], 300, 1000⟩ : APICache Nat) "k" 42 0 100
    (by simp [keysOf]) rfl

/-- Claim C6: on a well-formed cache at capacity, inserting a fresh key
evicts exactly the least-recently-used key (the head of the recency order):
that key alone leaves the dict, every other key survives, the new key is
stored, and the new entry becomes most-recently-used (the recency order
becomes `rest ++ [k]`); moreover a key just touched by a hit `get` is never
the next eviction victim (the head of the recency order) while at least one
strictly less-recently-used key remains. -/
theorem cache_lru_eviction {α : Type} :
    (∀ (c : APICache α) (k : String) (v : α) (now : ℚ),
      c.WF → c.cache.length = c.maxSize → 1 ≤ c.maxSize →
      k ∉ keysOf c.cache →
      ∃ lru rest, c.accessOrder = lru :: rest ∧
        c.set k v now = .ok
          { c with cache := dictInsert (dictErase c.cache lru) k ⟨v, now⟩
                   accessOrder := rest ++ [k] } ∧
        lru ∉ keysOf (dictInsert (dictErase c.cache lru) k ⟨v, now⟩) ∧
        (∀ j ∈ keysOf c.cache, j ≠ lru →
          j ∈ keysOf (dictInsert (dictErase c.cache lru) k ⟨v, now⟩)) ∧
        k ∈ keysOf (dictInsert (dictErase c.cache lru) k ⟨v, now⟩)) ∧
    (∀ (c c' : APICache α) (k : String) (v : α) (now : ℚ),
      c.accessOrder.Nodup → c.get k now = .ok (some v, c') →
      2 ≤ c'.accessOrder.length → c'.accessOrder.head? ≠ some k) := by
  constructor
  · intro c k v now hwf hfull hpos hfresh
    obtain ⟨hordn, hkeysn, hiff⟩ := hwf
    have hkeyslen : (keysOf c.cache).length = c.maxSize := by
      simp [keysOf, hfull]
    have horder_ne : c.accessOrder ≠ [] := by
      have hex : ∃ k0, k0 ∈ keysOf c.cache := by
        cases hck : keysOf c.cache with
        | nil => rw [hck] at hkeyslen; simp at hkeyslen; omega
        | cons a l => exact ⟨a, hck ▸ List.mem_cons_self a l⟩
      obtain ⟨k0, hk0⟩ := hex
      intro hnil
      have hmem := (hiff k0).2 hk0
      rw [hnil] at hmem
      simp at hmem
    obtain ⟨lru, rest, hlr⟩ := List.exists_cons_of_ne_nil horder_ne
    have hlru_keys : lru ∈ keysOf c.cache := (hiff lru).1 (by rw [hlr]; simp)
    have hnotsome : ¬ (dictLookup c.cache k).isSome := by
      rw [dictLookup_isSome_iff]; exact hfresh
    have herase_len : (dictErase c.cache lru).length = c.maxSize - 1 := by
      rw [length_dictErase_of_mem c.cache lru hlru_keys, hfull]
    have hev : evictLoop c.maxSize c.cache c.accessOrder =
        .ok (dictErase c.cache lru, rest) := by
      rw [hlr]
      unfold evictLoop
      rw [if_pos (by omega)]
      exact evictLoop_ok_of_lt _ _ _ (by omega)
    have hsetr : c.set k v now = .ok
        { c with cache := dictInsert (dictErase c.cache lru) k ⟨v, now⟩
                 accessOrder := rest ++ [k] } := by
      unfold APICache.set
      rw [if_neg (fun hc => hnotsome hc.1)]
      simp only []
      rw [if_neg hnotsome, hev]
    have hkfresh2 : k ∉ keysOf (dictErase c.cache lru) := by
      rw [keysOf_dictErase]
      intro hk
      exact hfresh (List.mem_of_mem_erase hk)
    have hkeq : keysOf (dictInsert (dictErase c.cache lru) k ⟨v, now⟩) =
        (keysOf c.cache).erase lru ++ [k] := by
      rw [keysOf_dictInsert_of_not_mem _ _ _ hkfresh2, keysOf_dictErase]
    refine ⟨lru, rest, hlr, hsetr, ?_, ?_, ?_⟩
    · rw [hkeq]
      simp only [List.mem_append, List.mem_singleton]
      push_neg
      exact ⟨hkeysn.not_mem_erase, fun he => hfresh (he ▸ hlru_keys)⟩
    · intro j hj hne
      rw [hkeq]
      simp only [List.mem_append]
      exact Or.inl ((List.mem_erase_of_ne hne).2 hj)
    · rw [hkeq]; simp
  · intro c c' k v now hnodup hget h2
    have hc' : c'.accessOrder = c.accessOrder.erase k ++ [k] := by
      unfold APICache.get at hget
      cases hlook : dictLookup c.cache k with
      | none => rw [hlook] at hget; simp at hget
      | some e =>
        rw [hlook] at hget
        simp only [] at hget
        split at hget
        · simp at hget
        · split at hget
          · obtain ⟨_, hstate⟩ :=
              Prod.mk.injEq .. ▸ (Except.ok.injEq .. ▸ hget)
            rw [← hstate]
          · exact Except.noConfusion hget
    rw [hc'] at h2 ⊢
    have hlen : 1 ≤ (c.accessOrder.erase k).length := by
      rw [List.length_append] at h2
      simpa using h2
    obtain ⟨e1, l1, he1⟩ :=
      List.exists_cons_of_ne_nil (by
        intro hnil
        rw [hnil] at hlen
        simp at hlen : c.accessOrder.erase k ≠ [])
    rw [he1]
    simp only [List.cons_append, List.head?_cons, ne_eq, Option.some.injEq]
    intro hek
    have hmem : e1 ∈ c.accessOrder.erase k := by rw [he1]; simp
    have := (hnodup.mem_erase_iff.1 hmem).1
    exact this (hek ▸ rfl)

theorem cache_lru_eviction_witness :
    (∃ lru rest, (["a", "b"] : List String) = lru :: rest ∧
      (⟨[("a", ⟨1, 0⟩), ("b", ⟨2, 0⟩)], ["a", "b"], 300, 2⟩ :
          APICache Nat).set "c" 3 10 =
        .ok { cache := dictInsert
                (dictErase [("a", ⟨1, 0⟩), ("b", ⟨2, 0⟩)] lru) "c" ⟨3, 10⟩
              accessOrder := rest ++ ["c"], ttl := 300, maxSize := 2 } ∧
      lru ∉ keysOf (dictInsert
        (dictErase [("a", ⟨1, 0⟩), ("b", ⟨2, 0⟩)] lru) "c" ⟨3, 10⟩) ∧
      (∀ j ∈ keysOf
          ([("a", ⟨1, 0⟩), ("b", ⟨2, 0⟩)] : List (String × CacheEntry Nat)),
        j ≠ lru →
        j ∈ keysOf (dictInsert
          (dictErase [("a", ⟨1, 0⟩), ("b", ⟨2, 0⟩)] lru) "c" ⟨3, 10⟩)) ∧
      "c" ∈ keysOf (dictInsert
        (dictErase [("a", ⟨1, 0⟩), ("b", ⟨2, 0⟩)] lru) "c" ⟨3, 10⟩)) ∧
    ((⟨[("a", ⟨1, 0⟩), ("b", ⟨2, 0⟩)], ["b", "a"], 300, 2⟩ :
        APICache Nat).accessOrder.head? ≠ some "a") :=
  ⟨cache_lru_eviction.1
      ⟨[("a", ⟨1, 0⟩), ("b", ⟨2, 0⟩)], ["a", "b"], 300, 2⟩ "c" 3 10
      ⟨by decide, by decide, fun k => by simp [keysOf]⟩ rfl (by decide)
      (by decide),
    cache_lru_eviction.2
      ⟨[("a", ⟨1, 0⟩), ("b", ⟨2, 0⟩)], ["a", "b"], 300, 2⟩
      ⟨[("a", ⟨1, 0⟩), ("b", ⟨2, 0⟩)], ["b", "a"], 300, 2⟩ "a" 1 10
      (by decide) (by simp [APICache.get, dictLookup]; norm_num) (by decide)⟩

/-- Claim C9: on a well-formed cache holding exactly `maxSize` entries,
`set` on an already-present key first removes that key's recency entry, so
the eviction loop evicts a different, still-live key `j` (the head of the
remaining order) instead of merely replacing `k`: `j` leaves the dict while
`k` stays; in the extreme case `maxSize = 1` with `k` the sole cached key,
the recency queue is empty when eviction is attempted and `set` raises an
uncaught `IndexError`, leaving the dict still containing `k` while the
recency order is empty. -/
theorem cache_set_present_at_capacity {α : Type} :
    (∀ (c : APICache α) (k : String) (v : α) (now : ℚ),
      c.WF → c.cache.length = c.maxSize → 2 ≤ c.cache.length →
      k ∈ keysOf c.cache →
      ∃ j rest, c.accessOrder.erase k = j :: rest ∧ j ≠ k ∧
        j ∈ keysOf c.cache ∧
        c.set k v now = .ok
          { c with cache := dictInsert (dictErase c.cache j) k ⟨v, now⟩
                   accessOrder := rest ++ [k] } ∧
        j ∉ keysOf (dictInsert (dictErase c.cache j) k ⟨v, now⟩) ∧
        k ∈ keysOf (dictInsert (dictErase c.cache j) k ⟨v, now⟩)) ∧
    ((⟨[("k", ⟨0, 0⟩)], ["k"], 300, 1⟩ : APICache Nat).set "k" 1 5 =
      .error ⟨[("k", ⟨0, 0⟩)], [], 300, 1⟩) := by
  constructor
  · intro c k v now hwf hfull h2 hk
    obtain ⟨hordn, hkeysn, hiff⟩ := hwf
    have hsome : (dictLookup c.cache k).isSome :=
      (dictLookup_isSome_iff _ _).2 hk
    have hkord : k ∈ c.accessOrder := (hiff k).2 hk
    have hperm : c.accessOrder.Perm (keysOf c.cache) :=
      (List.perm_ext_iff_of_nodup hordn hkeysn).2 hiff
    have hordlen : c.accessOrder.length = c.cache.length := by
      rw [hperm.length_eq]; simp [keysOf]
    have herlen : (c.accessOrder.erase k).length = c.cache.length - 1 := by
      rw [List.length_erase_of_mem hkord, hordlen]
    obtain ⟨j, rest, hjr⟩ := List.exists_cons_of_ne_nil
      (show c.accessOrder.erase k ≠ [] by
        intro hnil
        rw [hnil] at herlen
        simp at herlen
        omega)
    have hjmem : j ∈ c.accessOrder.erase k := by rw [hjr]; simp
    have hjk : j ≠ k := (hordn.mem_erase_iff.1 hjmem).1
    have hjord : j ∈ c.accessOrder := (hordn.mem_erase_iff.1 hjmem).2
    have hjkeys : j ∈ keysOf c.cache := (hiff j).1 hjord
    have hjlen : (dictErase c.cache j).length = c.cache.length - 1 :=
      length_dictErase_of_mem _ _ hjkeys
    have hev : evictLoop c.maxSize c.cache (c.accessOrder.erase k) =
        .ok (dictErase c.cache j, rest) := by
      rw [hjr]
      unfold evictLoop
      rw [if_pos (by omega)]
      exact evictLoop_ok_of_lt _ _ _ (by omega)
    have hsetr : c.set k v now = .ok
        { c with cache := dictInsert (dictErase c.cache j) k ⟨v, now⟩
                 accessOrder := rest ++ [k] } := by
      unfold APICache.set
      rw [if_neg (fun hc => hc.2 hkord)]
      simp only []
      rw [if_pos hsome, hev]
    have hkin2 : k ∈ keysOf (dictErase c.cache j) := by
      rw [keysOf_dictErase]
      exact (List.mem_erase_of_ne (Ne.symm hjk)).2 hk
    have hkeq : keysOf (dictInsert (dictErase c.cache j) k ⟨v, now⟩) =
        (keysOf c.cache).erase j := by
      rw [keysOf_dictInsert_of_mem _ _ _ hkin2, keysOf_dictErase]
    refine ⟨j, rest, hjr, hjk, hjkeys, hsetr, ?_, ?_⟩
    · rw [hkeq]
      exact hkeysn.not_mem_erase
    · rw [hkeq]
      exact (List.mem_erase_of_ne (Ne.symm hjk)).2 hk
  · rfl

theorem cache_set_present_at_capacity_witness :
    (∃ j rest, (["x", "y"] : List String).erase "y" = j :: rest ∧ j ≠ "y" ∧
      j ∈ keysOf
        ([("x", ⟨1, 0⟩), ("y", ⟨2, 0⟩)] : List (String × CacheEntry Nat)) ∧
      (⟨[("x", ⟨1, 0⟩), ("y", ⟨2, 0⟩)], ["x", "y"], 300, 2⟩ :
          APICache Nat).set "y" 9 7 =
        .ok { cache := dictInsert
                (dictErase [("x", ⟨1, 0⟩), ("y", ⟨2, 0⟩)] j) "y" ⟨9, 7⟩
              accessOrder := rest ++ ["y"], ttl := 300, maxSize := 2 } ∧
      j ∉ keysOf (dictInsert
        (dictErase [("x", ⟨1, 0⟩), ("y", ⟨2, 0⟩)] j) "y" ⟨9, 7⟩) ∧
      "y" ∈ keysOf (dictInsert
        (dictErase [("x", ⟨1, 0⟩), ("y", ⟨2, 0⟩)] j) "y" ⟨9, 7⟩)) ∧
    ((⟨[("k", ⟨0, 0⟩)], ["k"], 300, 1⟩ : APICache Nat).set "k" 1 5 =
      .error ⟨[("k", ⟨0, 0⟩)], [], 300, 1⟩) :=
  ⟨cache_set_present_at_capacity.1
      ⟨[("x", ⟨1, 0⟩), ("y", ⟨2, 0⟩)], ["x", "y"], 300, 2⟩ "y" 9 7
      ⟨by decide, by decide, fun k => by simp [keysOf]⟩ rfl (by decide)
      (by decide),
    (@cache_set_present_at_capacity Nat).2⟩

/-- Claim C8 counterexample: with exactly one recorded metric,
`get_stats(last_n = 0)` aggregates that metric — `total_requests = 1` — not
zero metrics as the claim states, because the Python slice `metrics[-0:]`
is the whole list. -/
theorem get_stats_lastn_zero_cex :
    (get_stats [⟨"e", "GET", 1/10, true, false⟩] 0).basic.total_requests
      = 1 ∧
    (get_stats [⟨"e", "GET", 1/10, true, false⟩] 0).basic.total_requests
      ≠ 0 := by
  constructor <;> simp [get_stats, pySliceLast, total_requests_eq]

/-- Claim C8 (amended): `get_stats(last_n)` aggregates exactly the most
recent `last_n` metrics for `last_n ≥ 1` (all of them when fewer exist),
and for `last_n = 0` it aggregates all metrics; fastest and slowest
durations are reported if and only if at least one metric lies in the
aggregated window; after one success of duration 0.1s and one failure of
duration 0.2s, `get_stats(last_n = 2)` reports `success_rate = 50`,
`avg_duration = 0.15`, fastest 0.1 and slowest 0.2. -/
theorem get_stats_window (ms : List RequestMetrics) (n : Nat) :
    (1 ≤ n → get_stats ms n =
      { basic := calculate_basic_stats (ms.drop (ms.length - n))
        fastest_request :=
          listMin ((ms.drop (ms.length - n)).map (fun m => m.duration))
        slowest_request :=
          listMax ((ms.drop (ms.length - n)).map (fun m => m.duration)) }) ∧
    (get_stats ms 0 =
      { basic := calculate_basic_stats ms
        fastest_request := listMin (ms.map (fun m => m.duration))
        slowest_request := listMax (ms.map (fun m => m.duration)) }) ∧
    ((get_stats ms n).fastest_request.isSome ↔
      1 ≤ (get_stats ms n).basic.total_requests) ∧
    ((get_stats ms n).slowest_request.isSome ↔
      1 ≤ (get_stats ms n).basic.total_requests) ∧
    (get_stats
        [⟨"e", "GET", 1/10, true, false⟩, ⟨"f", "GET", 2/10, false, false⟩]
        2 =
      { basic :=
          { total_requests := 2
            avg_duration := 3/20
            success_rate := 50
            cache_hit_rate := 0 }
        fastest_request := some (1/10)
        slowest_request := some (2/10) }) := by
  refine ⟨?_, ?_, ?_, ?_, ?_⟩
  · intro hn
    have hn0 : ¬ n = 0 := by omega
    by_cases hms : ms.isEmpty
    · have : ms = [] := by
        cases ms with
        | nil => rfl
        | cons a l => simp at hms
      subst this
      simp [get_stats, pySliceLast]
    · simp [get_stats, pySliceLast, hms, hn0]
  · by_cases hms : ms.isEmpty
    · have : ms = [] := by
        cases ms with
        | nil => rfl
        | cons a l => simp at hms
      subst this
      simp [get_stats, pySliceLast]
    · simp [get_stats, pySliceLast, hms]
  · rw [show (get_stats ms n).fastest_request =
        listMin ((if ms.isEmpty then [] else pySliceLast ms n).map
          (fun m => m.duration)) from rfl,
      show (get_stats ms n).basic.total_requests =
        (calculate_basic_stats
          (if ms.isEmpty then [] else pySliceLast ms n)).total_requests
        from rfl,
      total_requests_eq, listMin_isSome_iff]
    generalize (if ms.isEmpty then [] else pySliceLast ms n) = recent
    cases recent <;> simp
  · rw [show (get_stats ms n).slowest_request =
        listMax ((if ms.isEmpty then [] else pySliceLast ms n).map
          (fun m => m.duration)) from rfl,
      show (get_stats ms n).basic.total_requests =
        (calculate_basic_stats
          (if ms.isEmpty then [] else pySliceLast ms n)).total_requests
        from rfl,
      total_requests_eq, listMax_isSome_iff]
    generalize (if ms.isEmpty then [] else pySliceLast ms n) = recent
    cases recent <;> simp
  · simp only [get_stats, pySliceLast, calculate_basic_stats, listMin,
      listMax]
    norm_num
    unfold pyRound pyRoundHalfEven
    norm_num

theorem get_stats_window_witness :
    (get_stats [⟨"e", "GET", 1/10, true, false⟩] 1 =
      { basic := calculate_basic_stats
          (([⟨"e", "GET", 1/10, true, false⟩] :
            List RequestMetrics).drop
            (([⟨"e", "GET", 1/10, true, false⟩] :
              List RequestMetrics).length - 1))
        fastest_request := listMin
          ((([⟨"e", "GET", 1/10, true, false⟩] :
            List RequestMetrics).drop
            (([⟨"e", "GET", 1/10, true, false⟩] :
              List RequestMetrics).length - 1)).map (fun m => m.duration))
        slowest_request := listMax
          ((([⟨"e", "GET", 1/10, true, false⟩] :
            List RequestMetrics).drop
            (([⟨"e", "GET", 1/10, true, false⟩] :
              List RequestMetrics).length - 1)).map
            (fun m => m.duration)) }) ∧
    ((get_stats [⟨"e", "GET", 1/10, true, false⟩] 0 =
      { basic := calculate_basic_stats
          [⟨"e", "GET", 1/10, true, false⟩]
        fastest_request := listMin
          (([⟨"e", "GET", 1/10, true, false⟩] :
            List RequestMetrics).map (fun m => m.duration))
        slowest_request := listMax
          (([⟨"e", "GET", 1/10, true, false⟩] :
            List RequestMetrics).map (fun m => m.duration)) }) ∧
    ((get_stats [⟨"e", "GET", 1/10, true, false⟩] 1).fastest_request.isSome
      ↔ 1 ≤ (get_stats
        [⟨"e", "GET", 1/10, true, false⟩] 1).basic.total_requests) ∧
    ((get_stats [⟨"e", "GET", 1/10, true, false⟩] 1).slowest_request.isSome
      ↔ 1 ≤ (get_stats
        [⟨"e", "GET", 1/10, true, false⟩] 1).basic.total_requests) ∧
    (get_stats
        [⟨"e", "GET", 1/10, true, false⟩, ⟨"f", "GET", 2/10, false, false⟩]
        2 =
      { basic :=
          { total_requests := 2
            avg_duration := 3/20
            success_rate := 50
            cache_hit_rate := 0 }
        fastest_request := some (1/10)
        slowest_request := some (2/10) })) :=
  ⟨(get_stats_window [⟨"e", "GET", 1/10, true, false⟩] 1).1 (by omega),
    (get_stats_window [⟨"e", "GET", 1/10, true, false⟩] 1).2⟩

end Umbral
